/-
Verification of the cadastral-map OCR extraction pipeline.

Shallow embedding of the TypeScript sources:
  - src/src/utils/multiEngineOCR.ts          (combineOCRResults, ensureCriticalTerms, ...)
  - src/src/utils/multiEngineOCRImproved.ts  (applyFuzzyMatching, findBestMatch,
                                              levenshteinDistance, AdvancedOCREngine)
  - src/src/utils/blackTextExtraction.ts     (levenshteinDistance, applyContrastEnhancement)
  - src/src/utils/imagePreprocessing.ts      (ImagePreprocessor.enhanceContrast)
  - src/src/utils/enhancedPreprocessing.ts   (preprocessImage: contrast / otsu branches)
  - src/unnamed/part_002                     (cadastralDictionary: dictionaries, levenshteinDistance)
  - src/unnamed/part_003                     (improvedPreprocessing: applyThresholding, tileImage)

JavaScript numbers are modelled as `Rat` (exact rationals; every concrete value
appearing in the relevant code paths is exactly representable), strings as Lean
`String` over their `List Char` data, and the per-fragment records as Lean
structures mirroring the TypeScript interfaces.
-/
import Mathlib

namespace MapScribe

/-! ## Data model (DetectedText / OCRResult, from advancedOCR.ts and multiEngineOCR.ts) -/

/-- Bounding box `{x0, y0, x1, y1}` from the `DetectedText` interface in advancedOCR.ts. -/
structure BBox where
  x0 : ℚ
  y0 : ℚ
  x1 : ℚ
  y1 : ℚ
deriving DecidableEq, Repr

/-- The all-zero bounding box `{x0: 0, y0: 0, x1: 0, y1: 0}` used as a default. -/
def zeroBBox : BBox := ⟨0, 0, 0, 0⟩

/-- The `type` field of `DetectedText`: `'character' | 'number'`. -/
inductive DType where
  | character
  | number
deriving DecidableEq, Repr

/-- The string tag used when a `DetectedText.type` is interpolated into a template
string such as the deduplication keys in multiEngineOCRImproved.ts. -/
def DType.tag : DType → String
  | .character => "character"
  | .number => "number"

/-- `DetectedText` from advancedOCR.ts: `{text, confidence, bbox, type}`. -/
structure DetectedText where
  text : String
  confidence : ℚ
  bbox : BBox
  type : DType
deriving DecidableEq, Repr

/-- `OCRResult` from multiEngineOCR.ts: `{text, confidence, bbox?}` (bbox optional). -/
structure OCRResult where
  text : String
  confidence : ℚ
  bbox : Option BBox
deriving DecidableEq, Repr

/-! ## JavaScript string primitives used by the sources

The texts handled by this program are ASCII (dictionary entries, digits,
basic punctuation), so `toLowerCase`, `trim` and the `\s`/`\w` character
classes are modelled at ASCII precision. -/

/-- JavaScript `\s` on the characters this program manipulates. -/
def jsIsSpace (c : Char) : Bool :=
  c = ' ' || c = '\t' || c = '\n' || c = '\r'

/-- JavaScript `\w`, i.e. `[A-Za-z0-9_]`. -/
def jsIsWordChar (c : Char) : Bool :=
  c.isAlpha || c.isDigit || c = '_'

/-- ASCII digit test, the `\d` class / `[0-9]`. -/
def jsIsDigit (c : Char) : Bool :=
  c.isDigit

/-- `String.prototype.toLowerCase` (ASCII). -/
def jsToLower (s : String) : String :=
  ⟨s.data.map Char.toLower⟩

/-- `String.prototype.trim`: strip whitespace from both ends. -/
def jsTrim (s : String) : String :=
  ⟨((s.data.dropWhile (fun c => jsIsSpace c)).reverse.dropWhile
      (fun c => jsIsSpace c)).reverse⟩

/-- Contiguous-sublist test on character lists, used to model
`String.prototype.includes`. -/
def listContainsSeg (hay needle : List Char) : Bool :=
  match hay with
  | [] => needle.isEmpty
  | _ :: t => needle.isPrefixOf hay || listContainsSeg t needle

/-- `String.prototype.includes`. -/
def jsIncludes (hay needle : String) : Bool :=
  listContainsSeg hay.data needle.data

/-! ## Levenshtein distance

Three source functions tabulate the classic unit-cost edit-distance
recurrence in an `(m+1) × (n+1)` dynamic-programming matrix with
`dp[i][0] = i`, `dp[0][j] = j` and
`dp[i][j] = min(dp[i-1][j] + 1, dp[i][j-1] + 1, dp[i-1][j-1] + cost)`,
`cost = 0` iff the two compared characters are equal.  `lev` is that
recurrence written as a recursion on the two character lists (the matrix is
its memoisation table); the three wrappers below record which source string
feeds which index of each implementation's matrix. -/

/-- One row step of the recurrence: computes `lev (x :: xs)` by structural
recursion on the second string, given `lev xs` as an oracle (the previous
matrix row). -/
def levAux (x : Char) (xs : List Char) (prev : List Char → ℕ) : List Char → ℕ
  | [] => xs.length + 1
  | y :: ys =>
    min (prev (y :: ys) + 1)
      (min (levAux x xs prev ys + 1)
        (prev ys + (if x = y then 0 else 1)))

/-- The unit-cost edit-distance recurrence shared by the three
`levenshteinDistance` implementations. -/
def lev : List Char → List Char → ℕ
  | [], ys => ys.length
  | x :: xs, ys => levAux x xs (lev xs) ys

@[simp] theorem lev_nil_left (ys : List Char) : lev [] ys = ys.length := rfl

@[simp] theorem lev_cons_nil (x : Char) (xs : List Char) :
    lev (x :: xs) [] = xs.length + 1 := rfl

theorem lev_cons_cons (x : Char) (xs : List Char) (y : Char) (ys : List Char) :
    lev (x :: xs) (y :: ys) =
      min (lev xs (y :: ys) + 1)
        (min (lev (x :: xs) ys + 1)
          (lev xs ys + (if x = y then 0 else 1))) := rfl

/-- `levenshteinDistance(str1, str2)` from multiEngineOCRImproved.ts:
`dp[i]` ranges over `str1`, `dp[·][j]` over `str2`, result `dp[m][n]`. -/
def levenshteinDistanceImproved (str1 str2 : String) : ℕ :=
  lev str1.data str2.data

/-- `levenshteinDistance(str1, str2)` from blackTextExtraction.ts (identical
matrix layout to the multiEngineOCRImproved.ts copy). -/
def levenshteinDistanceBlackText (str1 str2 : String) : ℕ :=
  lev str1.data str2.data

/-- `levenshteinDistance(a, b)` from src/unnamed/part_002 (cadastralDictionary):
its matrix is transposed relative to the other two copies — rows `i` range
over `b`, columns `j` over `a`, `cost` compares `a[j-1]` with `b[i-1]`, and the
result is `matrix[b.length][a.length]`; so it tabulates the recurrence with
`b` in the first role and `a` in the second. -/
def levenshteinDistancePart002 (a b : String) : ℕ :=
  lev b.data a.data

@[simp] theorem lev_nil_right (a : List Char) : lev a [] = a.length := by
  cases a <;> simp

theorem lev_le_cons_right (xs : List Char) (y : Char) (ys : List Char) :
    lev xs (y :: ys) ≤ lev xs ys + 1 := by
  cases xs with
  | nil => simp
  | cons x xs => rw [lev_cons_cons]; omega

theorem lev_le_cons_left (x : Char) (xs ys : List Char) :
    lev (x :: xs) ys ≤ lev xs ys + 1 := by
  cases ys with
  | nil => simp
  | cons y ys => rw [lev_cons_cons]; omega

theorem lev_tail_left (y : Char) (xs zs : List Char) :
    lev xs zs ≤ lev (y :: xs) zs + 1 := by
  induction zs with
  | nil => simp only [lev_nil_right, List.length_cons]; omega
  | cons z zs ih =>
    have h1 := lev_le_cons_right xs z zs
    rw [lev_cons_cons]
    by_cases hyz : y = z
    · subst hyz; simp only [if_pos rfl]; omega
    · simp only [if_neg hyz]; omega

theorem length_le_add_lev : ∀ (a b : List Char), b.length ≤ a.length + lev a b := by
  intro a
  induction a with
  | nil => simp
  | cons x xs ih =>
    intro b
    induction b with
    | nil => simp
    | cons y ys ihb =>
      have h1 := ih (y :: ys)
      have h3 := ih ys
      rw [lev_cons_cons]
      by_cases hxy : x = y <;> simp [hxy, List.length_cons] at * <;> omega

theorem lev_le_length_add : ∀ (a b : List Char), lev a b ≤ a.length + b.length := by
  intro a
  induction a with
  | nil => simp
  | cons x xs ih =>
    intro b
    induction b with
    | nil => simp
    | cons y ys ihb =>
      have h1 := ih (y :: ys)
      have h3 := ih ys
      rw [lev_cons_cons]
      by_cases hxy : x = y <;> simp [hxy, List.length_cons] at * <;> omega

theorem lev_self : ∀ (a : List Char), lev a a = 0 := by
  intro a
  induction a with
  | nil => simp
  | cons x xs ih =>
    rw [lev_cons_cons]
    simp [ih]

theorem lev_comm : ∀ (a b : List Char), lev a b = lev b a := by
  intro a
  induction a with
  | nil => intro b; simp
  | cons x xs ih =>
    intro b
    induction b with
    | nil => simp
    | cons y ys ihb =>
      have h1 := ih (y :: ys)
      have h3 := ih ys
      rw [lev_cons_cons, lev_cons_cons]
      by_cases hxy : x = y
      · subst hxy; simp [h1, h3, ihb]; omega
      · have hyx : ¬ y = x := fun h => hxy h.symm
        simp [hxy, hyx, h1, h3, ihb]; omega

theorem lev_triangle : ∀ (a b c : List Char), lev a c ≤ lev a b + lev b c := by
  have key : ∀ (n : ℕ) (a b c : List Char),
      a.length + b.length + c.length ≤ n → lev a c ≤ lev a b + lev b c := by
    intro n
    induction n with
    | zero =>
      intro a b c h
      cases a <;> cases b <;> cases c <;> simp_all
    | succ n ih =>
      intro a b c h
      match a, b, c with
      | [], b, c => simpa using length_le_add_lev b c
      | a, b, [] =>
        have h1 := length_le_add_lev b a
        have h2 := lev_comm b a
        simp only [lev_nil_right]
        omega
      | x :: as, [], z :: cs =>
        have h1 := lev_le_length_add (x :: as) (z :: cs)
        simp only [lev_nil_right, lev_nil_left, List.length_cons] at h1 ⊢
        omega
      | x :: as, y :: bs, z :: cs =>
        simp only [List.length_cons] at h
        have hA := lev_cons_cons x as y bs
        have hB := lev_cons_cons y bs z cs
        have hC := lev_cons_cons x as z cs
        have iha1 : lev as (z :: cs) ≤ lev as (y :: bs) + lev (y :: bs) (z :: cs) :=
          ih as (y :: bs) (z :: cs) (by simp only [List.length_cons]; omega)
        have iha2 : lev (x :: as) (z :: cs) ≤ lev (x :: as) bs + lev bs (z :: cs) :=
          ih (x :: as) bs (z :: cs) (by simp only [List.length_cons]; omega)
        have ih3 : lev as (z :: cs) ≤ lev as bs + lev bs (z :: cs) :=
          ih as bs (z :: cs) (by simp only [List.length_cons]; omega)
        have ih4 : lev (x :: as) cs ≤ lev (x :: as) (y :: bs) + lev (y :: bs) cs :=
          ih (x :: as) (y :: bs) cs (by simp only [List.length_cons]; omega)
        have ih5 : lev as cs ≤ lev as bs + lev bs cs :=
          ih as bs cs (by omega)
        have t3 := lev_tail_left y bs (z :: cs)
        have htri : (if x = z then (0 : ℕ) else 1) ≤
            (if x = y then (0 : ℕ) else 1) + (if y = z then (0 : ℕ) else 1) := by
          by_cases hxy : x = y <;> by_cases hyz : y = z <;> by_cases hxz : x = z <;>
            simp [hxy, hyz, hxz]
        omega
  intro a b c
  exact key (a.length + b.length + c.length) a b c le_rfl

/-! ## Cadastral dictionaries (src/unnamed/part_002, cadastralDictionary) -/

/-- `CADASTRAL_PLACE_NAMES` from cadastralDictionary, in source order
(including the deliberate misspelling variants). -/
def CADASTRAL_PLACE_NAMES : List String :=
  ["Benakanahalli", "Devapur", "Nalla", "Devatakala", "Mangihal", "Gonal", "Aladahal",
   "Covered", "tank", "Antaral", "Rajapur", "Stony", "waste", "Nagarahal", "kagaral",
   "kawadimutt", "Konal", "Kaganti",
   "Benakanahali", "Devpur", "Devatakal", "Manghal", "Gonel", "Aladhall",
   "Coverd", "tonk", "Antral", "Raja pur", "Stoney", "weste", "Nagarhal", "kagarl",
   "kawadimut", "Konel", "Kagant", "Kagent", "Kaganthi",
   "Covered tank", "Stony waste",
   "Village", "Boundary", "Survey", "Plot", "Road", "River", "Canal", "Field"]

/-- `CADASTRAL_NUMBERS` from cadastralDictionary, in source order (the source
list contains repeated entries, e.g. two copies of "24", "364" and "379",
which are preserved here). -/
def CADASTRAL_NUMBERS : List String :=
  ["74", "24", "387", "13", "12", "11", "10", "76", "22", "396", "424", "404", "379",
   "372", "362", "364", "20", "426", "18", "391", "386", "377", "364", "361", "402",
   "400", "84", "24", "521", "519", "518", "517", "516", "357", "371", "522", "360", "379",
   "25", "26", "27", "28", "29", "30", "31", "32", "33", "34", "35", "36", "37", "38", "39",
   "40", "41", "42", "43", "44", "45", "46", "47", "48", "49", "50", "51", "52", "53", "54",
   "100", "101", "102", "103", "104", "105", "200", "201", "202", "203", "300", "301", "302"]

/-! ## Fuzzy matching and duplicate removal (multiEngineOCRImproved.ts) -/

/-- `calculateSimilarity(str1, str2)` from multiEngineOCRImproved.ts:
`1 - distance / maxLength`.  (In Lean, division by zero yields 0; the only
call site guards the first argument to be derived from a string of length
at least 2, and dictionary entries are nonempty, so `maxLength > 0` on every
reachable call.) -/
def calculateSimilarity (str1 str2 : String) : ℚ :=
  1 - (levenshteinDistanceImproved str1 str2 : ℚ) / (max str1.length str2.length : ℚ)

/-- The embedding of the regex test `/^\d+$/.test(s)`. -/
def jsTestAllDigits (s : String) : Bool :=
  !s.data.isEmpty && s.data.all jsIsDigit

/-- `findBestMatch(text, knownTerms)` from multiEngineOCRImproved.ts:
reject short inputs, try exact lowercase match, then substring containment
either way, then the best fuzzy `calculateSimilarity` score above the 0.7
threshold (strict comparison, first strict improvement wins). -/
def findBestMatch (text : String) (knownTerms : List String) : Option String :=
  if text.length < 2 then none
  else
    let normalizedText := jsTrim (jsToLower text)
    match knownTerms.find? (fun term => jsToLower term = normalizedText) with
    | some term => some term
    | none =>
      match knownTerms.find? (fun term =>
          jsIncludes (jsToLower term) normalizedText ||
          jsIncludes normalizedText (jsToLower term)) with
      | some term => some term
      | none =>
        (knownTerms.foldl (fun (best : ℚ × Option String) term =>
          let score := calculateSimilarity normalizedText (jsToLower term)
          if score > best.1 then (score, some term) else best) ((7 : ℚ)/10, none)).2

/-- The deduplication key `` `${result.text.toLowerCase()}_${result.type}` ``
used by `applyFuzzyMatching` (and `processTilesWithMultipleEngines`): the
`FusionKey` of the specification. -/
def fusionKey (r : DetectedText) : String :=
  jsToLower r.text ++ "_" ++ r.type.tag

/-- The per-fragment body of the first loop of `applyFuzzyMatching`: the
fragments this iteration appends to `matchedResults` (one or none). -/
def fuzzyMatchOne (result : DetectedText) : List DetectedText :=
  match result.type with
  | .character =>
    match findBestMatch result.text CADASTRAL_PLACE_NAMES with
    | some bestMatch =>
      [{ result with text := bestMatch, confidence := min (result.confidence + 5) 100 }]
    | none => [result]
  | .number =>
    match findBestMatch result.text CADASTRAL_NUMBERS with
    | some bestMatch =>
      [{ result with text := bestMatch, confidence := min (result.confidence + 5) 100 }]
    | none =>
      if jsTestAllDigits result.text then [result] else []

/-- One iteration of the second loop of `applyFuzzyMatching`: skip the
fragment when its `fusionKey` was already seen, otherwise record key and
fragment. -/
def dedupStep (acc : List String × List DetectedText) (result : DetectedText) :
    List String × List DetectedText :=
  let key := fusionKey result
  if acc.1.contains key then acc
  else (acc.1 ++ [key], acc.2 ++ [result])

/-- The second loop of `applyFuzzyMatching`: keep the first fragment seen for
each `fusionKey`, drop later ones. -/
def dedupFirstByKey (l : List DetectedText) : List DetectedText :=
  (l.foldl dedupStep ([], [])).2

/-- `applyFuzzyMatching(results)` from multiEngineOCRImproved.ts. -/
def applyFuzzyMatching (results : List DetectedText) : List DetectedText :=
  let matchedResults := results.foldl (fun acc result => acc ++ fuzzyMatchOne result) []
  dedupFirstByKey matchedResults

/-! ## Post-processing (AdvancedOCREngine.postProcessResults, multiEngineOCRImproved.ts) -/

/-- `.replace(/[^\w\s,.-]/g, '')`: keep word characters, whitespace and `, . -`. -/
def keepBasicChar (c : Char) : Bool :=
  jsIsWordChar c || jsIsSpace c || c = ',' || c = '.' || c = '-'

/-- `.replace(/\s+/g, ' ')`: collapse every whitespace run to a single space.
The flag records whether the previous character belonged to a run. -/
def squeezeSpacesAux : Bool → List Char → List Char
  | _, [] => []
  | prevSpace, c :: rest =>
    if jsIsSpace c then
      if prevSpace then squeezeSpacesAux true rest
      else ' ' :: squeezeSpacesAux true rest
    else c :: squeezeSpacesAux false rest

/-- The text cleanup in `postProcessResults`:
`.replace(/[^\w\s,.-]/g, '').replace(/\s+/g, ' ').trim()`. -/
def jsCleanupText (s : String) : String :=
  jsTrim ⟨squeezeSpacesAux false (s.data.filter keepBasicChar)⟩

/-- The deduplication key `` `${item.text}_${item.type}` `` of
`postProcessResults` (raw text, not lowercased). -/
def postProcessKey (item : DetectedText) : String :=
  item.text ++ "_" ++ item.type.tag

/-- Stable descending insertion by confidence, modelling the JavaScript stable
`refined.sort((a, b) => b.confidence - a.confidence)`. -/
def insertByConfDesc (r : DetectedText) : List DetectedText → List DetectedText
  | [] => [r]
  | x :: xs => if x.confidence < r.confidence then r :: x :: xs else x :: insertByConfDesc r xs

/-- Stable sort by descending confidence. -/
def sortByConfDesc (l : List DetectedText) : List DetectedText :=
  l.foldr insertByConfDesc []

/-- One iteration of the loop of `AdvancedOCREngine.postProcessResults`
(multiEngineOCRImproved.ts): drop the fragment when its confidence is ≤ 20 or
its `text_type` key has been seen; otherwise clean the text, drop if the
cleaned text is empty, and keep the fragment with confidence capped at 99 via
`Math.min(item.confidence, 99)`. -/
def postStep (acc : List DetectedText × List String) (item : DetectedText) :
    List DetectedText × List String :=
  let key := postProcessKey item
  if ¬ acc.2.contains key ∧ (20 : ℚ) < item.confidence then
    let cleanText := jsCleanupText item.text
    if 0 < cleanText.length then
      (acc.1 ++ [{ item with text := cleanText, confidence := min item.confidence 99 }],
       acc.2 ++ [key])
    else acc
  else acc

/-- `AdvancedOCREngine.postProcessResults(detectedTexts)` from
multiEngineOCRImproved.ts: the filtering/cleaning/capping loop (`postStep`),
then `refined.sort((a, b) => b.confidence - a.confidence)`. -/
def postProcessResults (detectedTexts : List DetectedText) : List DetectedText :=
  sortByConfDesc (detectedTexts.foldl postStep ([], [])).1

/-! ## Multi-engine fusion (multiEngineOCR.ts) -/

/-- `SHORT_FORM_MAPPING` from multiEngineOCR.ts, in source order. -/
def SHORT_FORM_MAPPING : List (String × String) :=
  [("Ben", "Benakanahalli"), ("Bena", "Benakanahalli"), ("Dev", "Devapur"),
   ("Deva", "Devatakala"), ("Nal", "Nalla"), ("Man", "Mangihal"), ("Gon", "Gonal"),
   ("Ala", "Aladahal"), ("Cov", "Covered"), ("Tan", "tank"), ("Ant", "Antaral"),
   ("Raj", "Rajapur"), ("Sto", "Stony"), ("Was", "waste"), ("Nag", "Nagarahal"),
   ("Kaga", "kagaral"), ("Kaw", "kawadimutt"), ("Kon", "Konal"), ("Kag", "Kaganti"),
   ("Benokanahalli", "Benakanahalli"), ("Devatakata", "Devatakala"),
   ("Mongihol", "Mangihal"), ("Gonat", "Gonal"), ("Atadhot", "Aladahal"),
   ("Antarot", "Antaral"), ("Rajpur", "Rajapur"), ("Nagarahot", "Nagarahal"),
   ("kagarot", "kagaral"), ("kawadimut", "kawadimutt"), ("Konat", "Konal")]

/-- Property lookup `SHORT_FORM_MAPPING[text]` (exact key). -/
def lookupShortForm (text : String) : Option String :=
  (SHORT_FORM_MAPPING.find? (fun p => p.1 = text)).map (fun p => p.2)

/-- `expandShortForms(text)` from multiEngineOCR.ts (the mapped values are all
nonempty, hence truthy, so each branch reduces to a lookup success test). -/
def expandShortForms (text : String) : String :=
  if text.length ≤ 4 ∧ (lookupShortForm text).isSome then
    (lookupShortForm text).getD text
  else if (lookupShortForm text).isSome then
    (lookupShortForm text).getD text
  else text

/-- `Map.prototype.set` on an association list: overwriting an existing key
keeps its original position (JavaScript `Map` insertion-order semantics);
a new key is appended. -/
def setAssocKeepPos : List (String × OCRResult) → String → OCRResult → List (String × OCRResult)
  | [], key, v => [(key, v)]
  | (k, w) :: rest, key, v =>
    if k = key then (k, v) :: rest else (k, w) :: setAssocKeepPos rest key v

/-- `Map.prototype.get` on an association list. -/
def lookupAssoc (m : List (String × OCRResult)) (key : String) : Option OCRResult :=
  (m.find? (fun p => p.1 = key)).map (fun p => p.2)

/-- One iteration of the accumulation loop of `combineOCRResults`. -/
def combineStep (m : List (String × OCRResult)) (result : OCRResult) :
    List (String × OCRResult) :=
  if (jsTrim result.text).length = 0 then m
  else
    let cleanText0 := jsTrim result.text
    let expandedText := expandShortForms cleanText0
    let confidence :=
      if expandedText ≠ cleanText0 then min (result.confidence + 10) 100
      else result.confidence
    let key := jsToLower expandedText
    match lookupAssoc m key with
    | none =>
      m ++ [(key, ⟨expandedText, confidence, some (result.bbox.getD zeroBBox)⟩)]
    | some existing =>
      if existing.confidence < confidence then
        setAssocKeepPos m key ⟨expandedText, confidence, some (result.bbox.getD zeroBBox)⟩
      else m

/-- `combineOCRResults(results)` from multiEngineOCR.ts: flatten, skip
empty/whitespace texts, expand short forms (boosting confidence by
`Math.min(confidence + 10, 100)` when an expansion fired), key the map by the
lowercased text (no kind in the key), keep the higher-confidence entry on a
key collision (strict `<`, so ties keep the first-seen entry), and finally
tag each surviving entry as a number iff its text occurs verbatim in
`CADASTRAL_NUMBERS`. -/
def combineOCRResults (results : List (List OCRResult)) : List DetectedText :=
  let textMap := (results.flatten).foldl combineStep []
  textMap.map (fun p =>
    { text := p.2.text, confidence := p.2.confidence,
      bbox := p.2.bbox.getD zeroBBox,
      type := if CADASTRAL_NUMBERS.contains p.2.text then DType.number else DType.character })

/-- The hard-coded `criticalTerms` list of `ensureCriticalTerms`
(multiEngineOCR.ts), in source order. -/
def criticalTerms : List (String × DType) :=
  [("Benakanahalli", .character), ("Devapur", .character), ("Nalla", .character),
   ("Devatakala", .character), ("Mangihal", .character), ("Gonal", .character),
   ("Aladahal", .character), ("Covered tank", .character), ("Antaral", .character),
   ("Rajapur", .character), ("Stony waste", .character), ("Nagarahal", .character),
   ("kagaral", .character), ("kawadimutt", .character), ("Konal", .character),
   ("Kaganti", .character),
   ("74", .number), ("24", .number), ("387", .number), ("13", .number),
   ("12", .number), ("11", .number), ("10", .number), ("76", .number),
   ("22", .number), ("396", .number), ("424", .number), ("404", .number),
   ("379", .number), ("372", .number), ("362", .number), ("364", .number),
   ("20", .number), ("426", .number), ("18", .number), ("391", .number),
   ("386", .number), ("377", .number), ("361", .number), ("402", .number),
   ("400", .number)]

/-- One iteration of the `ensureCriticalTerms` loop: append the critical term
when its lowercased text is not among the lowercased texts of the original
results. -/
def ensureStep (existingTexts : List String) (acc : List DetectedText)
    (term : String × DType) : List DetectedText :=
  if existingTexts.contains (jsToLower term.1) then acc
  else acc ++ [{ text := term.1, confidence := 90, bbox := zeroBBox, type := term.2 }]

/-- `ensureCriticalTerms(results)` from multiEngineOCR.ts: collect the
lowercased texts already present, then append each critical term that is
missing (confidence 90, zero bounding box).  `processWithMultipleEngines`
returns `ensureCriticalTerms(combineOCRResults([...]))` as its final result. -/
def ensureCriticalTerms (results : List DetectedText) : List DetectedText :=
  let existingTexts := results.map (fun r => jsToLower r.text)
  criticalTerms.foldl (ensureStep existingTexts) results

/-! ## Contrast enhancement (three implementations)

Each source routine applies the same scalar transform independently to every
8-bit channel value; the transforms are embedded as functions on a single
channel value `v`. -/

/-- `ImagePreprocessor.enhanceContrast` (imagePreprocessing.ts):
`contrast = (factor - 1) * 128`, then
`Math.max(0, Math.min(255, v * factor + contrast))`. -/
def enhanceContrastPixel (factor v : ℚ) : ℚ :=
  max 0 (min 255 (v * factor + (factor - 1) * 128))

/-- The contrast branch of `preprocessImage` (enhancedPreprocessing.ts):
`intercept = 128 * (1 - factor)`, then
`Math.min(255, Math.max(0, v * factor + intercept))`. -/
def preprocessImageContrastPixel (factor v : ℚ) : ℚ :=
  min 255 (max 0 (v * factor + 128 * (1 - factor)))

/-- `applyContrastEnhancement` (blackTextExtraction.ts):
`intercept = 128 * (1 - factor)`, then
`Math.min(255, Math.max(0, v * factor + intercept))`. -/
def applyContrastEnhancementPixel (factor v : ℚ) : ℚ :=
  min 255 (max 0 (v * factor + 128 * (1 - factor)))

/-- Modelled from the spec: the contrast transform
`v' = clamp(0, 255, v·factor + 128·(1 - factor))`. -/
def specContrastTransform (factor v : ℚ) : ℚ :=
  max 0 (min 255 (v * factor + 128 * (1 - factor)))

/-! ## Classification of cleaned words
(`AdvancedOCREngine.extractAndClassifyText`, multiEngineOCRImproved.ts) -/

/-- `word.replace(/[^\w\s,.-]/g, '').trim()` — the cleaning applied to a raw
word before classification. -/
def cleanWord (word : String) : String :=
  jsTrim ⟨word.data.filter keepBasicChar⟩

/-- The embedding of the regex test `/^[a-zA-Z\s,.-]+$/.test(s)`. -/
def jsTestCharacterClass (s : String) : Bool :=
  !s.data.isEmpty &&
    s.data.all (fun c => c.isAlpha || jsIsSpace c || c = ',' || c = '.' || c = '-')

/-- The classification decision applied to one cleaned word in
`extractAndClassifyText`:
`isNumber = /^\d+$/.test(w)`,
`isCharacter = /^[a-zA-Z\s,.-]+$/.test(w) && w.length > 1`;
the word is kept iff `isNumber || isCharacter`, with type
`isNumber ? 'number' : 'character'`; otherwise it is dropped. -/
def classifyWord (w : String) : Option DType :=
  let isNumber := jsTestAllDigits w
  let isCharacter := jsTestCharacterClass w && decide (1 < w.length)
  if isNumber || isCharacter then
    some (if isNumber then DType.number else DType.character)
  else none

/-- The embedding of the regex test `/^[A-Za-z][a-zA-Z\s,.-]*$/.test(s)`: a
leading ASCII letter followed by letters, whitespace and `, . -`.  (The
fallback path of advancedOCR.ts writes the first class `[a-zA-Z]`, the same
set.) -/
def jsTestLeadingLetterClass (s : String) : Bool :=
  match s.data with
  | [] => false
  | c :: rest =>
    c.isAlpha && rest.all (fun d => d.isAlpha || jsIsSpace d || d = ',' || d = '.' || d = '-')

/-- The classification decision applied to one cleaned word in
`extractAndClassifyText` of advancedOCR.ts (lines 191–196):
`isNumber = /^\d+$/.test(w)`,
`isCharacter = (/^[A-Za-z][a-zA-Z\s,.-]*$/.test(w) && w.length >= 2) ||
(lineIsPotentialPlaceName && w.length >= 3)`;
the word is kept iff `isNumber || isCharacter`, with type
`isNumber ? 'number' : 'character'`; otherwise it is dropped.  The
line-context flag `lineIsPotentialPlaceName` is a parameter here; the
fallback path of the same function (line 247, no line context) is the
`lineCtx := false` instance of this definition. -/
def classifyWordAdvanced (lineCtx : Bool) (w : String) : Option DType :=
  let isNumber := jsTestAllDigits w
  let isCharacter := (jsTestLeadingLetterClass w && decide (2 ≤ w.length)) ||
    (lineCtx && decide (3 ≤ w.length))
  if isNumber || isCharacter then
    some (if isNumber then DType.number else DType.character)
  else none

/-- Modelled from the spec: the claimed classifier.  A string is a Number iff
after stripping all non-digit characters the remainder matches `^[0-9]+$` and
is non-empty; a PlaceName iff it matches `^[A-Za-z][A-Za-z\s,.-]*$` and has
length at least 2; anything else is rejected. -/
def specPlaceNameRegex (s : String) : Bool :=
  match s.data with
  | [] => false
  | c :: rest =>
    c.isAlpha && rest.all (fun d => d.isAlpha || jsIsSpace d || d = ',' || d = '.' || d = '-')

/-- Modelled from the spec: classification as claimed (see
`specPlaceNameRegex`). -/
def specClassify (s : String) : Option DType :=
  if !(s.data.filter jsIsDigit).isEmpty then some DType.number
  else if specPlaceNameRegex s && decide (2 ≤ s.length) then some DType.character
  else none

/-! ## Otsu thresholding (`applyThresholding`, src/unnamed/part_003; the
`otsu` branch of `preprocessImage` in enhancedPreprocessing.ts is the same
code).  The normalized histogram is a function from bin index to rational
mass; the scan below is the `for (let t = 0; t < 256; t++)` loop. -/

/-- Class-0 weight at candidate threshold `t`: mass of bins `i ≤ t`. -/
def otsuW0 (hist : ℕ → ℚ) (t : ℕ) : ℚ :=
  ((List.range 256).map (fun i => if i ≤ t then hist i else 0)).sum

/-- Class-1 weight at candidate threshold `t`: mass of bins `i > t`. -/
def otsuW1 (hist : ℕ → ℚ) (t : ℕ) : ℚ :=
  ((List.range 256).map (fun i => if i ≤ t then 0 else hist i)).sum

/-- Class-0 mean, accumulated as in the source: `mean0 += i * hist[i] / w0`. -/
def otsuMean0 (hist : ℕ → ℚ) (t : ℕ) : ℚ :=
  ((List.range 256).map (fun i => if i ≤ t then (i : ℚ) * hist i / otsuW0 hist t else 0)).sum

/-- Class-1 mean, accumulated as in the source: `mean1 += i * hist[i] / w1`. -/
def otsuMean1 (hist : ℕ → ℚ) (t : ℕ) : ℚ :=
  ((List.range 256).map (fun i => if i ≤ t then 0 else (i : ℚ) * hist i / otsuW1 hist t)).sum

/-- Between-class variance `w0 * w1 * Math.pow(mean0 - mean1, 2)`. -/
def otsuVariance (hist : ℕ → ℚ) (t : ℕ) : ℚ :=
  otsuW0 hist t * otsuW1 hist t * (otsuMean0 hist t - otsuMean1 hist t) ^ 2

/-- One iteration of the threshold-selection loop: skip `t` when a class is
empty; otherwise update `(maxVariance, threshold)` on strict improvement. -/
def otsuStep (hist : ℕ → ℚ) (acc : ℚ × ℕ) (t : ℕ) : ℚ × ℕ :=
  if otsuW0 hist t = 0 ∨ otsuW1 hist t = 0 then acc
  else if otsuVariance hist t > acc.1 then (otsuVariance hist t, t) else acc

/-- The full scan `for (let t = 0; t < 256; t++)` starting from
`maxVariance = 0`, `threshold = 0`. -/
def otsuScan (hist : ℕ → ℚ) : ℚ × ℕ :=
  (List.range 256).foldl (otsuStep hist) (0, 0)

/-- The selected Otsu threshold. -/
def otsuThreshold (hist : ℕ → ℚ) : ℕ :=
  (otsuScan hist).2

/-- The normalized histogram the source computes from the 8-bit samples:
per-bin count divided by the pixel count. -/
def normalizedHistogram (pixels : List ℕ) : ℕ → ℚ :=
  fun i => ((pixels.filter (fun p => p = i)).length : ℚ) / (pixels.length : ℚ)

/-! ## Tiling (`tileImage`, src/unnamed/part_003) -/

/-- A tile window produced by `tileImage` (its canvas position and size). -/
structure Tile where
  x : ℕ
  y : ℕ
  w : ℕ
  h : ℕ
deriving DecidableEq, Repr

/-- `tileImage(canvas, tileSize, overlap)` from src/unnamed/part_003:
stride `tileSize - overlap`; `Math.ceil(width / stride)` columns and
`Math.ceil(height / stride)` rows of windows, each clipped to the image and
dropped when its width or height falls below 100 pixels.  (The embedding
assumes `overlap < tileSize`, as in every call site; `(n + stride - 1) / stride`
is `Math.ceil(n / stride)` on naturals.) -/
def tileImage (width height tileSize overlap : ℕ) : List Tile :=
  let stride := tileSize - overlap
  let numTilesX := (width + stride - 1) / stride
  let numTilesY := (height + stride - 1) / stride
  ((List.range numTilesY).map (fun y =>
    (List.range numTilesX).filterMap (fun x =>
      let tileX := x * stride
      let tileY := y * stride
      let tileW := min tileSize (width - tileX)
      let tileH := min tileSize (height - tileY)
      if tileW < 100 ∨ tileH < 100 then none
      else some ⟨tileX, tileY, tileW, tileH⟩))).flatten

/-! # Theorems for the claims -/

attribute [local semireducible] Rat.add Rat.mul Rat.sub Rat.inv

/-- Helper: the two clamp orders agree (because `0 ≤ 255`). -/
theorem clamp_comm (x : ℚ) : min 255 (max 0 x) = max 0 (min 255 x) := by
  rcases le_total x 0 with h | h <;> rcases le_total x 255 with h2 | h2 <;>
    simp [min_def, max_def] <;> split_ifs <;> linarith

/-- C3. The claim: every contrast-enhancement implementation maps a channel
value `v` to `clamp(0, 255, v·factor + 128·(1-factor))`.  Counterexample:
`ImagePreprocessor.enhanceContrast` (imagePreprocessing.ts) uses the
sign-flipped intercept `(factor - 1) * 128`; at `factor = 2`, `v = 0` it
returns 128 while the claimed transform returns 0. -/
theorem C3_contrast_counterexample :
    enhanceContrastPixel 2 0 = 128 ∧ specContrastTransform 2 0 = 0 ∧
      enhanceContrastPixel 2 0 ≠ specContrastTransform 2 0 := by
  refine ⟨?_, ?_, ?_⟩ <;> norm_num [enhanceContrastPixel, specContrastTransform]

/-- C3 (amended). The contrast implementations in enhancedPreprocessing.ts and
blackTextExtraction.ts compute exactly the claimed transform
`clamp(0, 255, v·factor + 128·(1-factor))` for every channel value and factor;
`ImagePreprocessor.enhanceContrast` (imagePreprocessing.ts) instead computes
`clamp(0, 255, v·factor + 128·(factor-1))` — the additive intercept has the
opposite sign, so it does not implement the claimed formula (e.g. it sends
`factor = 2`, `v = 0` to 128 rather than 0). -/
theorem C3_contrast_amended :
    (∀ factor v : ℚ,
        preprocessImageContrastPixel factor v = specContrastTransform factor v ∧
        applyContrastEnhancementPixel factor v = specContrastTransform factor v ∧
        enhanceContrastPixel factor v = max 0 (min 255 (v * factor + 128 * (factor - 1)))) ∧
      enhanceContrastPixel 2 0 = 128 := by
  constructor
  · intro factor v
    refine ⟨?_, ?_, ?_⟩
    · rw [preprocessImageContrastPixel, specContrastTransform, clamp_comm]
    · rw [applyContrastEnhancementPixel, specContrastTransform, clamp_comm]
    · rw [enhanceContrastPixel]; ring_nf
  · norm_num [enhanceContrastPixel]

/-- C6. Tiling partitions the image into windows with stride
`tileSize - overlap`, dropping every window whose clipped width or height is
below 100 px; for a 1600×800 image with tile size 800 and overlap 100 it
produces exactly `ceil(1600/700) × ceil(800/700) = 3 × 2 = 6` windows, none of
which falls below the minimum size. -/
theorem C6_tiling :
    (∀ width height tileSize overlap : ℕ,
        ∀ t ∈ tileImage width height tileSize overlap, 100 ≤ t.w ∧ 100 ≤ t.h) ∧
      (tileImage 1600 800 800 100).length = 6 := by
  constructor
  · intro width height tileSize overlap t ht
    simp only [tileImage, List.mem_flatten, List.mem_map, List.mem_filterMap,
      List.mem_range] at ht
    obtain ⟨row, ⟨y, hy, hrow⟩, hmem⟩ := ht
    rw [← hrow] at hmem
    simp only [List.mem_filterMap, List.mem_range] at hmem
    obtain ⟨x, hx, hsome⟩ := hmem
    split at hsome
    · exact absurd hsome (by simp)
    · rename_i hcond
      cases hsome
      refine ⟨?_, ?_⟩ <;> dsimp only <;> omega
  · decide

/-- C6 witness: the first window of the 1600×800 scenario, checked against the
minimum-size bound. -/
theorem C6_tiling_witness :
    100 ≤ (Tile.mk 0 0 800 800).w ∧ 100 ≤ (Tile.mk 0 0 800 800).h :=
  C6_tiling.1 1600 800 800 100 (Tile.mk 0 0 800 800) (by decide)

/-- C7. The Levenshtein edit-distance function of the source (unit costs for
insertion/deletion/substitution, zero for a match) is a metric: symmetric,
zero on the diagonal, and satisfying the triangle inequality. -/
theorem C7_levenshtein_metric :
    (∀ a b : String, levenshteinDistanceImproved a b = levenshteinDistanceImproved b a) ∧
      (∀ a : String, levenshteinDistanceImproved a a = 0) ∧
      (∀ a b c : String,
        levenshteinDistanceImproved a c ≤
          levenshteinDistanceImproved a b + levenshteinDistanceImproved b c) := by
  refine ⟨fun a b => ?_, fun a => ?_, fun a b c => ?_⟩
  · exact lev_comm a.data b.data
  · exact lev_self a.data
  · exact lev_triangle a.data b.data c.data

/-- C10. The three `levenshteinDistance` implementations compute the same
function: the transposed-matrix version of src/unnamed/part_002 agrees with
the copies in blackTextExtraction.ts and multiEngineOCRImproved.ts on all
pairs of strings (the transposition is cancelled by symmetry of the edit
distance). -/
theorem C10_levenshtein_equiv :
    ∀ a b : String,
      levenshteinDistancePart002 a b = levenshteinDistanceImproved a b ∧
      levenshteinDistancePart002 a b = levenshteinDistanceBlackText a b ∧
      levenshteinDistanceImproved a b = levenshteinDistanceBlackText a b := by
  intro a b
  refine ⟨?_, ?_, rfl⟩ <;>
    exact lev_comm b.data a.data

/-- C4. The claim: the classifier is a Number iff stripping non-digits leaves
a non-empty digit string, a PlaceName iff the text matches
`^[A-Za-z][A-Za-z\s,.-]*$` with length ≥ 2, and everything else (including
pure punctuation) is dropped.  Counterexamples: the multiEngineOCRImproved.ts
copy classifies the pure-punctuation cleaned word `"--"` as a PlaceName (its
character regex `^[a-zA-Z\s,.-]+$` has no leading-letter requirement), while
the claimed classifier rejects it; and both cited implementations drop
`"a1"` entirely (the advancedOCR.ts copy with or without its line-context
flag), while the claimed digit-stripping rule would classify it as a
Number. -/
theorem C4_classifier_counterexample :
    classifyWord ("--") = some DType.character ∧ specClassify ("--") = none ∧
      classifyWord ("a1") = none ∧ specClassify ("a1") = some DType.number ∧
      classifyWordAdvanced false ("a1") = none ∧
      classifyWordAdvanced true ("a1") = none := by
  refine ⟨?_, ?_, ?_, ?_, ?_, ?_⟩ <;> decide

/-- C4 (amended). Neither cited implementation strips non-digit characters:
both classify a cleaned word as a Number iff the word itself is a non-empty
all-digit string, so mixed words such as `"a1"` are dropped rather than
classified as Numbers.  The PlaceName tests differ per implementation: the
multiEngineOCRImproved.ts copy keeps any word of ASCII letters, whitespace
and `, . -` of length at least 2, with no leading-letter requirement (so
pure punctuation such as `"--"` is kept); the advancedOCR.ts copy requires a
leading ASCII letter followed by `[a-zA-Z\s,.-]*` with length at least 2 (so
it drops `"--"`), except that with its line-context flag
(`lineIsPotentialPlaceName`) set it also keeps any word of length at least
3.  Every other word is dropped. -/
theorem C4_classifier_amended :
    (∀ s : String,
      (classifyWord s = some DType.number ↔ s.data ≠ [] ∧ ∀ c ∈ s.data, c.isDigit) ∧
      (classifyWord s = some DType.character ↔
        ¬(s.data ≠ [] ∧ ∀ c ∈ s.data, c.isDigit) ∧
        (∀ c ∈ s.data, c.isAlpha ∨ jsIsSpace c ∨ c = ',' ∨ c = '.' ∨ c = '-') ∧
        2 ≤ s.length) ∧
      (classifyWord s = none ↔
        ¬(s.data ≠ [] ∧ ∀ c ∈ s.data, c.isDigit) ∧
        ¬((∀ c ∈ s.data, c.isAlpha ∨ jsIsSpace c ∨ c = ',' ∨ c = '.' ∨ c = '-') ∧
          2 ≤ s.length))) ∧
    (∀ (lineCtx : Bool) (s : String),
      (classifyWordAdvanced lineCtx s = some DType.number ↔
        s.data ≠ [] ∧ ∀ c ∈ s.data, c.isDigit) ∧
      (classifyWordAdvanced lineCtx s = some DType.character ↔
        ¬(s.data ≠ [] ∧ ∀ c ∈ s.data, c.isDigit) ∧
        ((∃ c cs, s.data = c :: cs ∧ (c.isAlpha : Prop) ∧
            ∀ d ∈ cs, (d.isAlpha : Prop) ∨ (jsIsSpace d : Prop) ∨ d = ',' ∨ d = '.' ∨ d = '-') ∧
            2 ≤ s.length ∨
          lineCtx = true ∧ 3 ≤ s.length)) ∧
      (classifyWordAdvanced lineCtx s = none ↔
        ¬(s.data ≠ [] ∧ ∀ c ∈ s.data, c.isDigit) ∧
        ¬((∃ c cs, s.data = c :: cs ∧ (c.isAlpha : Prop) ∧
            ∀ d ∈ cs, (d.isAlpha : Prop) ∨ (jsIsSpace d : Prop) ∨ d = ',' ∨ d = '.' ∨ d = '-') ∧
            2 ≤ s.length ∨
          lineCtx = true ∧ 3 ≤ s.length))) := by
  constructor
  · intro s
    have hlen : s.length = s.data.length := rfl
    have hAiff : jsTestAllDigits s = true ↔ (s.data ≠ [] ∧ ∀ c ∈ s.data, c.isDigit) := by
      simp [jsTestAllDigits, jsIsDigit, List.all_eq_true, List.isEmpty_iff]
    have hBiff : (jsTestCharacterClass s && decide (1 < s.length)) = true ↔
        ((∀ c ∈ s.data, (c.isAlpha : Prop) ∨ (jsIsSpace c : Prop) ∨ c = ',' ∨ c = '.' ∨ c = '-') ∧
          2 ≤ s.length) := by
      simp only [jsTestCharacterClass, Bool.and_eq_true, Bool.not_eq_true',
        List.isEmpty_eq_false, List.all_eq_true, Bool.or_eq_true, decide_eq_true_eq, hlen]
      constructor
      · rintro ⟨⟨_, hall⟩, hlt⟩
        exact ⟨fun c hc => by have := hall c hc; tauto, by omega⟩
      · rintro ⟨hall, hlt⟩
        refine ⟨⟨?_, fun c hc => by have := hall c hc; tauto⟩, by omega⟩
        intro hnil; rw [hnil] at hlt; simp at hlt
    cases hA : jsTestAllDigits s <;>
      cases hB : (jsTestCharacterClass s && decide (1 < s.length))
    · have hA' : ¬(s.data ≠ [] ∧ ∀ c ∈ s.data, c.isDigit) := by
        rw [hA] at hAiff; simpa using hAiff.not.mp (by simp)
      have hB' : ¬((∀ c ∈ s.data, (c.isAlpha : Prop) ∨ (jsIsSpace c : Prop) ∨
          c = ',' ∨ c = '.' ∨ c = '-') ∧ 2 ≤ s.length) := by
        rw [hB] at hBiff; simpa using hBiff.not.mp (by simp)
      have hcw : classifyWord s = none := by simp [classifyWord, hA, hB]
      rw [hcw]
      refine ⟨⟨fun h => absurd h (by simp), fun hp => absurd hp hA'⟩,
        ⟨fun h => absurd h (by simp), fun hp => absurd hp.2 hB'⟩,
        ⟨fun _ => ⟨hA', hB'⟩, fun _ => rfl⟩⟩
    · have hA' : ¬(s.data ≠ [] ∧ ∀ c ∈ s.data, c.isDigit) := by
        rw [hA] at hAiff; simpa using hAiff.not.mp (by simp)
      have hB' : ((∀ c ∈ s.data, (c.isAlpha : Prop) ∨ (jsIsSpace c : Prop) ∨
          c = ',' ∨ c = '.' ∨ c = '-') ∧ 2 ≤ s.length) := hBiff.mp hB
      have hcw : classifyWord s = some DType.character := by simp [classifyWord, hA, hB]
      rw [hcw]
      refine ⟨⟨fun h => absurd h (by simp), fun hp => absurd hp hA'⟩,
        ⟨fun _ => ⟨hA', hB'⟩, fun _ => rfl⟩,
        ⟨fun h => absurd h (by simp), fun hp => absurd hB' hp.2⟩⟩
    · have hA' : (s.data ≠ [] ∧ ∀ c ∈ s.data, c.isDigit) := hAiff.mp hA
      have hB' : ¬((∀ c ∈ s.data, (c.isAlpha : Prop) ∨ (jsIsSpace c : Prop) ∨
          c = ',' ∨ c = '.' ∨ c = '-') ∧ 2 ≤ s.length) := by
        rw [hB] at hBiff; simpa using hBiff.not.mp (by simp)
      have hcw : classifyWord s = some DType.number := by simp [classifyWord, hA, hB]
      rw [hcw]
      refine ⟨⟨fun _ => hA', fun _ => rfl⟩,
        ⟨fun h => absurd h (by simp), fun hp => absurd hA' hp.1⟩,
        ⟨fun h => absurd h (by simp), fun hp => absurd hA' hp.1⟩⟩
    · have hA' : (s.data ≠ [] ∧ ∀ c ∈ s.data, c.isDigit) := hAiff.mp hA
      have hcw : classifyWord s = some DType.number := by simp [classifyWord, hA, hB]
      rw [hcw]
      refine ⟨⟨fun _ => hA', fun _ => rfl⟩,
        ⟨fun h => absurd h (by simp), fun hp => absurd hA' hp.1⟩,
        ⟨fun h => absurd h (by simp), fun hp => absurd hA' hp.1⟩⟩

  · intro lineCtx s
    have hlen : s.length = s.data.length := rfl
    have hAiff : jsTestAllDigits s = true ↔ (s.data ≠ [] ∧ ∀ c ∈ s.data, c.isDigit) := by
      simp [jsTestAllDigits, jsIsDigit, List.all_eq_true, List.isEmpty_iff]
    have hLiff : jsTestLeadingLetterClass s = true ↔
        (∃ c cs, s.data = c :: cs ∧ (c.isAlpha : Prop) ∧
          ∀ d ∈ cs, (d.isAlpha : Prop) ∨ (jsIsSpace d : Prop) ∨ d = ',' ∨ d = '.' ∨ d = '-') := by
      cases hd : s.data with
      | nil => simp [jsTestLeadingLetterClass, hd]
      | cons c cs =>
        simp only [jsTestLeadingLetterClass, hd, Bool.and_eq_true, List.all_eq_true,
          Bool.or_eq_true, decide_eq_true_eq]
        constructor
        · rintro ⟨h1, h2⟩
          exact ⟨c, cs, rfl, h1, fun d hd2 => by have := h2 d hd2; tauto⟩
        · rintro ⟨c2, cs2, hcs, h1, h2⟩
          injection hcs with e1 e2
          subst e1
          subst e2
          exact ⟨h1, fun d hd2 => by have := h2 d hd2; tauto⟩
    have hCiff : ((jsTestLeadingLetterClass s && decide (2 ≤ s.length)) ||
        (lineCtx && decide (3 ≤ s.length))) = true ↔
        ((∃ c cs, s.data = c :: cs ∧ (c.isAlpha : Prop) ∧
            ∀ d ∈ cs, (d.isAlpha : Prop) ∨ (jsIsSpace d : Prop) ∨ d = ',' ∨ d = '.' ∨ d = '-') ∧
            2 ≤ s.length ∨
          lineCtx = true ∧ 3 ≤ s.length) := by
      simp only [Bool.or_eq_true, Bool.and_eq_true, decide_eq_true_eq, hLiff]
    cases hA : jsTestAllDigits s <;>
      cases hB : ((jsTestLeadingLetterClass s && decide (2 ≤ s.length)) ||
        (lineCtx && decide (3 ≤ s.length)))
    · have hA2 : ¬(s.data ≠ [] ∧ ∀ c ∈ s.data, c.isDigit) := by
        rw [hA] at hAiff; simpa using hAiff.not.mp (by simp)
      have hB2 : ¬((∃ c cs, s.data = c :: cs ∧ (c.isAlpha : Prop) ∧
          ∀ d ∈ cs, (d.isAlpha : Prop) ∨ (jsIsSpace d : Prop) ∨ d = ',' ∨ d = '.' ∨ d = '-') ∧
          2 ≤ s.length ∨ lineCtx = true ∧ 3 ≤ s.length) := by
        rw [hB] at hCiff; simpa using hCiff.not.mp (by simp)
      have hcw : classifyWordAdvanced lineCtx s = none := by
        simp [classifyWordAdvanced, hA, hB]
      rw [hcw]
      refine ⟨⟨fun h => absurd h (by simp), fun hp => absurd hp hA2⟩,
        ⟨fun h => absurd h (by simp), fun hp => absurd hp.2 hB2⟩,
        ⟨fun _ => ⟨hA2, hB2⟩, fun _ => rfl⟩⟩
    · have hA2 : ¬(s.data ≠ [] ∧ ∀ c ∈ s.data, c.isDigit) := by
        rw [hA] at hAiff; simpa using hAiff.not.mp (by simp)
      have hB2 : ((∃ c cs, s.data = c :: cs ∧ (c.isAlpha : Prop) ∧
          ∀ d ∈ cs, (d.isAlpha : Prop) ∨ (jsIsSpace d : Prop) ∨ d = ',' ∨ d = '.' ∨ d = '-') ∧
          2 ≤ s.length ∨ lineCtx = true ∧ 3 ≤ s.length) := hCiff.mp hB
      have hcw : classifyWordAdvanced lineCtx s = some DType.character := by
        simp [classifyWordAdvanced, hA, hB]
      rw [hcw]
      refine ⟨⟨fun h => absurd h (by simp), fun hp => absurd hp hA2⟩,
        ⟨fun _ => ⟨hA2, hB2⟩, fun _ => rfl⟩,
        ⟨fun h => absurd h (by simp), fun hp => absurd hB2 hp.2⟩⟩
    · have hA2 : (s.data ≠ [] ∧ ∀ c ∈ s.data, c.isDigit) := hAiff.mp hA
      have hcw : classifyWordAdvanced lineCtx s = some DType.number := by
        simp [classifyWordAdvanced, hA, hB]
      rw [hcw]
      refine ⟨⟨fun _ => hA2, fun _ => rfl⟩,
        ⟨fun h => absurd h (by simp), fun hp => absurd hA2 hp.1⟩,
        ⟨fun h => absurd h (by simp), fun hp => absurd hA2 hp.1⟩⟩
    · have hA2 : (s.data ≠ [] ∧ ∀ c ∈ s.data, c.isDigit) := hAiff.mp hA
      have hcw : classifyWordAdvanced lineCtx s = some DType.number := by
        simp [classifyWordAdvanced, hA, hB]
      rw [hcw]
      refine ⟨⟨fun _ => hA2, fun _ => rfl⟩,
        ⟨fun h => absurd h (by simp), fun hp => absurd hA2 hp.1⟩,
        ⟨fun h => absurd h (by simp), fun hp => absurd hA2 hp.1⟩⟩

/-- C4 witness: the amended characterization applied at concrete cleaned
words — "12" for the multiEngineOCRImproved.ts classifier and "Gonal" for
the advancedOCR.ts classifier without line context. -/
theorem C4_classifier_witness :
    classifyWord ("12") = some DType.number ∧
      classifyWordAdvanced false ("Gonal") = some DType.character := by
  constructor
  · exact (C4_classifier_amended.1 ("12")).1.mpr (by decide)
  · refine (C4_classifier_amended.2 false ("Gonal")).2.1.mpr
      ⟨by decide, Or.inl ⟨⟨'G', ("onal").data, by decide, by decide, by decide⟩, by decide⟩⟩

/-! ### Helper lemmas for the fusion / correction claims -/

theorem contains_iff_mem {l : List String} {a : String} : l.contains a = true ↔ a ∈ l :=
  List.elem_iff

theorem mem_insertByConfDesc {r x : DetectedText} :
    ∀ {l : List DetectedText}, r ∈ insertByConfDesc x l ↔ r = x ∨ r ∈ l := by
  intro l
  induction l with
  | nil => simp [insertByConfDesc]
  | cons y l ih =>
    rw [insertByConfDesc]
    by_cases h : y.confidence < x.confidence
    · rw [if_pos h]; simp
    · rw [if_neg h]; simp [ih]; tauto

theorem mem_sortByConfDesc {r : DetectedText} :
    ∀ {l : List DetectedText}, r ∈ sortByConfDesc l ↔ r ∈ l := by
  intro l
  induction l with
  | nil => simp [sortByConfDesc]
  | cons x l ih =>
    show r ∈ insertByConfDesc x (sortByConfDesc l) ↔ r ∈ x :: l
    rw [mem_insertByConfDesc]
    simp [ih]

theorem mem_fuzzyFold {r : DetectedText} :
    ∀ (l acc : List DetectedText),
      r ∈ l.foldl (fun acc result => acc ++ fuzzyMatchOne result) acc →
      r ∈ acc ∨ ∃ x ∈ l, r ∈ fuzzyMatchOne x := by
  intro l
  induction l with
  | nil => intro acc h; exact Or.inl h
  | cons x l ih =>
    intro acc h
    rcases ih (acc ++ fuzzyMatchOne x) h with h1 | ⟨y, hy, hr⟩
    · rcases List.mem_append.mp h1 with h2 | h2
      · exact Or.inl h2
      · exact Or.inr ⟨x, List.mem_cons_self x l, h2⟩
    · exact Or.inr ⟨y, List.mem_cons_of_mem x hy, hr⟩

theorem mem_dedupFold {r : DetectedText} :
    ∀ (l : List DetectedText) (acc : List String × List DetectedText),
      r ∈ (l.foldl dedupStep acc).2 → r ∈ acc.2 ∨ r ∈ l := by
  intro l
  induction l with
  | nil => intro acc h; exact Or.inl h
  | cons x l ih =>
    intro acc h
    rw [List.foldl_cons] at h
    rcases ih (dedupStep acc x) h with h1 | h1
    · by_cases hc : acc.1.contains (fusionKey x) = true
      · rw [show dedupStep acc x = acc from by
          simp only [dedupStep]; rw [if_pos hc]] at h1
        exact Or.inl h1
      · rw [show dedupStep acc x = (acc.1 ++ [fusionKey x], acc.2 ++ [x]) from by
          simp only [dedupStep]; rw [if_neg hc]] at h1
        rcases List.mem_append.mp h1 with h2 | h2
        · exact Or.inl h2
        · simp at h2; exact Or.inr (by rw [h2]; exact List.mem_cons_self x l)
    · exact Or.inr (List.mem_cons_of_mem x h1)

theorem fuzzyMatchOne_conf_le {r r2 : DetectedText} (hc : r.confidence ≤ 100)
    (h : r2 ∈ fuzzyMatchOne r) : r.confidence ≤ r2.confidence := by
  have hb : r.confidence ≤ min (r.confidence + 5) 100 := le_min (by linarith) hc
  cases hr : r.type
  case character =>
    simp only [fuzzyMatchOne, hr] at h
    cases hm : findBestMatch r.text CADASTRAL_PLACE_NAMES
    case none =>
      simp only [hm, List.mem_singleton] at h
      rw [h]
    case some bm =>
      simp only [hm, List.mem_singleton] at h
      rw [h]
      exact hb
  case number =>
    simp only [fuzzyMatchOne, hr] at h
    cases hm : findBestMatch r.text CADASTRAL_NUMBERS
    case none =>
      simp only [hm] at h
      by_cases hd : jsTestAllDigits r.text = true
      · rw [if_pos hd, List.mem_singleton] at h
        rw [h]
      · rw [if_neg hd] at h
        exact absurd h (List.not_mem_nil r2)
    case some bm =>
      simp only [hm, List.mem_singleton] at h
      rw [h]
      exact hb

theorem dedup_pairwise_aux :
    ∀ (l : List DetectedText) (acc : List String × List DetectedText),
      (∀ r ∈ acc.2, fusionKey r ∈ acc.1) →
      acc.2.Pairwise (fun a b => fusionKey a ≠ fusionKey b) →
      ((l.foldl dedupStep acc).2).Pairwise (fun a b => fusionKey a ≠ fusionKey b) := by
  intro l
  induction l with
  | nil => intro acc _ h2; exact h2
  | cons x l ih =>
    intro acc h1 h2
    rw [List.foldl_cons]
    by_cases hc : acc.1.contains (fusionKey x) = true
    · rw [show dedupStep acc x = acc from by
        simp only [dedupStep]; rw [if_pos hc]]
      exact ih acc h1 h2
    · rw [show dedupStep acc x = (acc.1 ++ [fusionKey x], acc.2 ++ [x]) from by
        simp only [dedupStep]; rw [if_neg hc]]
      apply ih
      · intro r hr
        rcases List.mem_append.mp hr with h | h
        · exact List.mem_append.mpr (Or.inl (h1 r h))
        · simp at h; subst h
          exact List.mem_append.mpr (Or.inr (List.mem_singleton.mpr rfl))
      · rw [List.pairwise_append]
        refine ⟨h2, List.pairwise_singleton _ _, ?_⟩
        intro a ha b hb
        rw [List.mem_singleton] at hb; subst hb
        intro heq
        exact hc (contains_iff_mem.mpr (heq ▸ h1 a ha))

theorem mem_postFold {r2 : DetectedText} :
    ∀ (l : List DetectedText) (acc : List DetectedText × List String),
      r2 ∈ (l.foldl postStep acc).1 →
      r2 ∈ acc.1 ∨ ∃ r1 ∈ l,
        r2 = { r1 with text := jsCleanupText r1.text, confidence := min r1.confidence 99 } := by
  intro l
  induction l with
  | nil => intro acc h; exact Or.inl h
  | cons x l ih =>
    intro acc h
    rw [List.foldl_cons] at h
    rcases ih (postStep acc x) h with h1 | ⟨r1, hr1, heq⟩
    · simp only [postStep] at h1
      split at h1
      · split at h1
        · rcases List.mem_append.mp h1 with h2 | h2
          · exact Or.inl h2
          · rw [List.mem_singleton] at h2
            exact Or.inr ⟨x, List.mem_cons_self x l, h2⟩
        · exact Or.inl h1
      · exact Or.inl h1
    · exact Or.inr ⟨r1, List.mem_cons_of_mem x hr1, heq⟩

/-- C1. The claim: correction/post-processing never lowers confidence.
Counterexample: `postProcessResults` caps confidence at 99 via
`Math.min(item.confidence, 99)`, so a fragment reported with confidence 100
leaves the post-processing stage with confidence 99 < 100. -/
theorem C1_confidence_counterexample :
    postProcessResults [⟨"abc", 100, zeroBBox, DType.character⟩]
        = [⟨"abc", 99, zeroBBox, DType.character⟩] ∧
      (99 : ℚ) < 100 := by
  constructor
  · decide
  · norm_num

/-- C1 (amended). The fuzzy-matching correction step never lowers confidence:
every output fragment of `applyFuzzyMatching` carries at least the confidence
of an input fragment it was derived from (given the invariant that input
confidences are ≤ 100).  The post-processing stage, however, caps confidence
at 99: every fragment it outputs has confidence `min(original, 99)` — equal to
the original for confidences ≤ 99 and strictly lower for fragments above 99. -/
theorem C1_confidence_amended :
    (∀ results : List DetectedText, (∀ r ∈ results, r.confidence ≤ 100) →
      ∀ r2 ∈ applyFuzzyMatching results, ∃ r1 ∈ results, r1.confidence ≤ r2.confidence) ∧
    (∀ l : List DetectedText, ∀ r2 ∈ postProcessResults l,
      ∃ r1 ∈ l, r2.confidence = min r1.confidence 99) := by
  constructor
  · intro results hconf r2 hr2
    rw [applyFuzzyMatching] at hr2
    rcases mem_dedupFold _ _ hr2 with h | h
    · exact absurd h (List.not_mem_nil r2)
    · rcases mem_fuzzyFold _ [] h with h1 | ⟨x, hx, hr⟩
      · exact absurd h1 (List.not_mem_nil r2)
      · exact ⟨x, hx, fuzzyMatchOne_conf_le (hconf x hx) hr⟩
  · intro l r2 hr2
    rw [postProcessResults] at hr2
    rw [mem_sortByConfDesc] at hr2
    rcases mem_postFold _ _ hr2 with h | ⟨r1, hr1, heq⟩
    · exact absurd h (List.not_mem_nil r2)
    · exact ⟨r1, hr1, by rw [heq]⟩

/-- C1 witness: the amended theorem applied to the concrete one-fragment lists
`[("7", 50, number)]` (fuzzy matching) and `[("abc", 100, character)]`
(post-processing, whose output fragment has confidence `min 100 99 = 99`). -/
theorem C1_confidence_witness :
    (∃ r1 ∈ ([⟨"7", 50, zeroBBox, DType.number⟩] : List DetectedText),
        r1.confidence ≤ (DetectedText.mk ("7") 50 zeroBBox DType.number).confidence) ∧
    (∃ r1 ∈ ([⟨"abc", 100, zeroBBox, DType.character⟩] : List DetectedText),
        (DetectedText.mk ("abc") 99 zeroBBox DType.character).confidence
          = min r1.confidence 99) := by
  constructor
  · exact C1_confidence_amended.1 [⟨"7", 50, zeroBBox, DType.number⟩]
      (by intro r hr; simp at hr; rw [hr]; norm_num)
      (DetectedText.mk ("7") 50 zeroBBox DType.number) (by decide)
  · exact C1_confidence_amended.2 [⟨"abc", 100, zeroBBox, DType.character⟩]
      (DetectedText.mk ("abc") 99 zeroBBox DType.character) (by decide)

/-- C2. The claim: fusion groups by `FusionKey` and keeps, within each group,
the fragment of maximum confidence.  Counterexample: the deduplication loop
of `applyFuzzyMatching` keeps the *first-seen* fragment of each key: feeding
it `("5", 50, number)` followed by `("5", 90, number)` (same FusionKey)
returns only the confidence-50 fragment, although the group's maximum
confidence is 90. -/
theorem C2_fusion_counterexample :
    applyFuzzyMatching [⟨"5", 50, zeroBBox, DType.number⟩, ⟨"5", 90, zeroBBox, DType.number⟩]
        = [⟨"5", 50, zeroBBox, DType.number⟩] ∧
      fusionKey ⟨"5", 50, zeroBBox, DType.number⟩ = fusionKey ⟨"5", 90, zeroBBox, DType.number⟩ ∧
      (50 : ℚ) < 90 := by
  refine ⟨by decide, by decide, by norm_num⟩

/-- C2 (amended). The fusion output does contain at most one fragment per
`FusionKey` — the output of `applyFuzzyMatching` has pairwise-distinct fusion
keys — but the fragment that survives in a group is the first-seen one, not
the one of maximum confidence. -/
theorem C2_fusion_amended :
    ∀ results : List DetectedText,
      (applyFuzzyMatching results).Pairwise (fun a b => fusionKey a ≠ fusionKey b) := by
  intro results
  rw [applyFuzzyMatching]
  exact dedup_pairwise_aux _ ([], []) (by intro r hr; exact absurd hr (List.not_mem_nil r))
    List.Pairwise.nil

/-! ### Helper lemmas for `ensureCriticalTerms` -/

theorem ensureFold_mono :
    ∀ (terms : List (String × DType)) (ex : List String) (acc : List DetectedText)
      (r : DetectedText), r ∈ acc → r ∈ terms.foldl (ensureStep ex) acc := by
  intro terms
  induction terms with
  | nil => intro ex acc r h; exact h
  | cons t0 terms ih =>
    intro ex acc r h
    rw [List.foldl_cons]
    apply ih
    by_cases hc0 : ex.contains (jsToLower t0.1) = true
    · rw [ensureStep, if_pos hc0]; exact h
    · rw [ensureStep, if_neg hc0]; exact List.mem_append.mpr (Or.inl h)

theorem ensureFold_main :
    ∀ (terms : List (String × DType)) (ex : List String) (acc : List DetectedText),
      (∀ k, ex.contains k = true → ∃ r ∈ acc, jsToLower r.text = k) →
      ∀ t ∈ terms,
        ∃ r ∈ terms.foldl (ensureStep ex) acc,
          jsToLower r.text = jsToLower t.1 ∧
          (ex.contains (jsToLower t.1) = false →
            r = ⟨t.1, 90, zeroBBox, t.2⟩) := by
  intro terms
  induction terms with
  | nil => intro ex acc _ t ht; exact absurd ht (List.not_mem_nil t)
  | cons t0 terms ih =>
    intro ex acc hex t ht
    rw [List.foldl_cons]
    rcases List.mem_cons.mp ht with rfl | ht'
    · by_cases hc : ex.contains (jsToLower t.1) = true
      · obtain ⟨r0, hr0, hk⟩ := hex (jsToLower t.1) hc
        refine ⟨r0, ?_, hk, fun hfalse => absurd hc (by rw [hfalse]; simp)⟩
        apply ensureFold_mono
        rw [ensureStep, if_pos hc]
        exact hr0
      · have hstep : ensureStep ex acc t =
            acc ++ [⟨t.1, 90, zeroBBox, t.2⟩] := by
          rw [ensureStep, if_neg hc]
        refine ⟨⟨t.1, 90, zeroBBox, t.2⟩, ?_, rfl, fun _ => rfl⟩
        apply ensureFold_mono
        rw [hstep]
        exact List.mem_append.mpr (Or.inr (List.mem_singleton.mpr rfl))
    · apply ih ex (ensureStep ex acc t0) ?_ t ht'
      intro k hk
      obtain ⟨r0, hr0, hkey⟩ := hex k hk
      refine ⟨r0, ?_, hkey⟩
      by_cases hc0 : ex.contains (jsToLower t0.1) = true
      · rw [ensureStep, if_pos hc0]; exact hr0
      · rw [ensureStep, if_neg hc0]; exact List.mem_append.mpr (Or.inl hr0)

/-- C8. The "ensure critical terms" fallback force-injects the hard-coded
critical-terms list: for every input list, the output of
`ensureCriticalTerms` (which `processWithMultipleEngines` applies last to
produce its final result) contains, for every critical term, a fragment with
that term's lowercased text — and whenever the term was missing from the
input (no input fragment has its lowercased text), the term is present
verbatim with confidence 90 and the zero bounding box. -/
theorem C8_critical_terms :
    ∀ (results : List DetectedText), ∀ t ∈ criticalTerms,
      ∃ r ∈ ensureCriticalTerms results,
        jsToLower r.text = jsToLower t.1 ∧
        (jsToLower t.1 ∉ results.map (fun x => jsToLower x.text) →
          r = ⟨t.1, 90, zeroBBox, t.2⟩) := by
  intro results t ht
  have hex : ∀ k, (results.map (fun r => jsToLower r.text)).contains k = true →
      ∃ r ∈ results, jsToLower r.text = k := by
    intro k hk
    rw [contains_iff_mem, List.mem_map] at hk
    obtain ⟨x, hx, he⟩ := hk
    exact ⟨x, hx, he⟩
  obtain ⟨r, hrmem, hkey, himp⟩ :=
    ensureFold_main criticalTerms (results.map (fun r => jsToLower r.text)) results hex t ht
  refine ⟨r, hrmem, hkey, fun hnot => himp ?_⟩
  cases hcc : (results.map (fun r => jsToLower r.text)).contains (jsToLower t.1)
  · rfl
  · exact absurd (contains_iff_mem.mp hcc) hnot

/-- C8 witness: the theorem applied to the empty result list and the first
critical term. -/
theorem C8_critical_terms_witness :
    ∃ r ∈ ensureCriticalTerms [],
      jsToLower r.text = jsToLower ("Benakanahalli", DType.character).1 ∧
      (jsToLower ("Benakanahalli", DType.character).1 ∉
          ([] : List DetectedText).map (fun x => jsToLower x.text) →
        r = ⟨("Benakanahalli", DType.character).1, 90, zeroBBox,
              ("Benakanahalli", DType.character).2⟩) :=
  C8_critical_terms [] ("Benakanahalli", DType.character) (by decide)

/-! ### Helper lemmas for `combineOCRResults` -/

theorem mem_setAssoc {m : List (String × OCRResult)} {key : String} {v : OCRResult}
    {p : String × OCRResult} :
    p ∈ setAssocKeepPos m key v → p = (key, v) ∨ p ∈ m := by
  induction m with
  | nil => intro h; simp [setAssocKeepPos] at h; exact Or.inl h
  | cons q rest ih =>
    intro h
    rw [show setAssocKeepPos (q :: rest) key v =
        (if q.1 = key then (q.1, v) :: rest else q :: setAssocKeepPos rest key v) from rfl] at h
    split at h
    · rename_i hq
      rcases List.mem_cons.mp h with h1 | h1
      · exact Or.inl (by rw [h1, hq])
      · exact Or.inr (List.mem_cons_of_mem q h1)
    · rcases List.mem_cons.mp h with h1 | h1
      · exact Or.inr (by rw [h1]; exact List.mem_cons_self q rest)
      · rcases ih h1 with h2 | h2
        · exact Or.inl h2
        · exact Or.inr (List.mem_cons_of_mem q h2)

theorem setAssoc_map_fst {key : String} {v : OCRResult} :
    ∀ {m : List (String × OCRResult)}, key ∈ m.map Prod.fst →
      (setAssocKeepPos m key v).map Prod.fst = m.map Prod.fst := by
  intro m
  induction m with
  | nil => intro h; simp at h
  | cons q rest ih =>
    intro h
    rw [show setAssocKeepPos (q :: rest) key v =
        (if q.1 = key then (q.1, v) :: rest else q :: setAssocKeepPos rest key v) from rfl]
    split
    · simp
    · rename_i hq
      have hkey : key ∈ rest.map Prod.fst := by
        rcases List.mem_map.mp h with ⟨p, hp, he⟩
        rcases List.mem_cons.mp hp with h1 | h1
        · exact absurd (h1 ▸ he) hq
        · exact List.mem_map.mpr ⟨p, h1, he⟩
      simp [ih hkey]

theorem lookupAssoc_eq_none {m : List (String × OCRResult)} {key : String} :
    lookupAssoc m key = none → ∀ p ∈ m, p.1 ≠ key := by
  intro h p hp
  rw [lookupAssoc, Option.map_eq_none'] at h
  have := List.find?_eq_none.mp h p hp
  simpa using this

theorem lookupAssoc_some_mem {m : List (String × OCRResult)} {key : String} {v : OCRResult} :
    lookupAssoc m key = some v → key ∈ m.map Prod.fst := by
  intro h
  rw [lookupAssoc, Option.map_eq_some'] at h
  obtain ⟨p, hp, _⟩ := h
  have hmem := List.mem_of_find?_eq_some hp
  have hpred := List.find?_some hp
  rw [decide_eq_true_eq] at hpred
  exact List.mem_map.mpr ⟨p, hmem, hpred⟩

theorem combineStep_inv {m : List (String × OCRResult)} {r : OCRResult}
    (h1 : ∀ p ∈ m, p.1 = jsToLower p.2.text)
    (h2 : (m.map Prod.fst).Pairwise (fun a b => a ≠ b)) :
    (∀ p ∈ combineStep m r, p.1 = jsToLower p.2.text) ∧
      ((combineStep m r).map Prod.fst).Pairwise (fun a b => a ≠ b) := by
  by_cases hskip : (jsTrim r.text).length = 0
  · rw [combineStep, if_pos hskip]; exact ⟨h1, h2⟩
  · rw [combineStep, if_neg hskip]
    cases hlk : lookupAssoc m (jsToLower (expandShortForms (jsTrim r.text)))
    · simp only [hlk]
      constructor
      · intro p hp
        rcases List.mem_append.mp hp with h | h
        · exact h1 p h
        · rw [List.mem_singleton] at h; rw [h]
      · rw [List.map_append, List.pairwise_append]
        refine ⟨h2, by simp, ?_⟩
        intro a ha b hb
        simp only [List.map_cons, List.map_nil, List.mem_singleton] at hb
        subst hb
        rcases List.mem_map.mp ha with ⟨p, hp, he⟩
        rw [← he]
        exact lookupAssoc_eq_none hlk p hp
    · simp only [hlk]
      have hkeymem := lookupAssoc_some_mem hlk
      have hsa : ∀ conf : ℚ,
          (∀ p ∈ setAssocKeepPos m (jsToLower (expandShortForms (jsTrim r.text)))
              ⟨expandShortForms (jsTrim r.text), conf, some (r.bbox.getD zeroBBox)⟩,
            p.1 = jsToLower p.2.text) ∧
          ((setAssocKeepPos m (jsToLower (expandShortForms (jsTrim r.text)))
              ⟨expandShortForms (jsTrim r.text), conf, some (r.bbox.getD zeroBBox)⟩).map
            Prod.fst).Pairwise (fun a b => a ≠ b) := by
        intro conf
        constructor
        · intro p hp
          rcases mem_setAssoc hp with h | h
          · rw [h]
          · exact h1 p h
        · rw [setAssoc_map_fst hkeymem]; exact h2
      split <;> split <;>
        first
          | exact hsa _
          | exact ⟨h1, h2⟩

theorem combineFold_inv :
    ∀ (l : List OCRResult) (m : List (String × OCRResult)),
      (∀ p ∈ m, p.1 = jsToLower p.2.text) →
      ((m.map Prod.fst).Pairwise (fun a b => a ≠ b)) →
      (∀ p ∈ l.foldl combineStep m, p.1 = jsToLower p.2.text) ∧
        (((l.foldl combineStep m).map Prod.fst).Pairwise (fun a b => a ≠ b)) := by
  intro l
  induction l with
  | nil => intro m h1 h2; exact ⟨h1, h2⟩
  | cons r l ih =>
    intro m h1 h2
    rw [List.foldl_cons]
    obtain ⟨g1, g2⟩ := combineStep_inv h1 h2
    exact ih (combineStep m r) g1 g2

/-- C9. `combineOCRResults` deduplicates by lowercased text alone (the map key
carries no kind): no two output fragments have equal lowercased texts; and
each output fragment's kind is assigned purely by dictionary membership — it
is `number` iff the fragment's text occurs verbatim in `CADASTRAL_NUMBERS`. -/
theorem C9_combine_dedup :
    ∀ results : List (List OCRResult),
      (combineOCRResults results).Pairwise
          (fun a b => jsToLower a.text ≠ jsToLower b.text) ∧
      ∀ r ∈ combineOCRResults results,
        (r.type = DType.number ↔ r.text ∈ CADASTRAL_NUMBERS) := by
  intro results
  obtain ⟨h1, h2⟩ := combineFold_inv results.flatten []
    (by intro p hp; exact absurd hp (List.not_mem_nil p)) List.Pairwise.nil
  constructor
  · rw [combineOCRResults]
    rw [List.pairwise_map]
    have h2' : (results.flatten.foldl combineStep []).Pairwise
        (fun p q => p.1 ≠ q.1) := by
      rw [← List.pairwise_map]
      exact h2
    refine h2'.imp_of_mem ?_
    intro p q hp hq hne
    rw [← h1 p hp, ← h1 q hq]
    exact hne
  · intro r hr
    rw [combineOCRResults, List.mem_map] at hr
    obtain ⟨p, _, heq⟩ := hr
    rw [← heq]
    by_cases hcc : CADASTRAL_NUMBERS.contains p.2.text = true
    · simp only [hcc, if_true]
      simp [contains_iff_mem.mp hcc]
    · rw [show CADASTRAL_NUMBERS.contains p.2.text = false from by
        cases hcv : CADASTRAL_NUMBERS.contains p.2.text
        · rfl
        · exact absurd hcv hcc]
      simp only [Bool.false_eq_true, if_false]
      constructor
      · intro h; exact absurd h (by simp)
      · intro h
        exact absurd (contains_iff_mem.mpr h) hcc

/-- C9 witness: the kind-assignment equivalence applied to the concrete
single-engine input `[[("74", 90)]]`, whose fused output fragment is the
number "74". -/
theorem C9_combine_dedup_witness :
    (DetectedText.mk ("74") 90 zeroBBox DType.number).type = DType.number ↔
      (DetectedText.mk ("74") 90 zeroBBox DType.number).text ∈ CADASTRAL_NUMBERS :=
  (C9_combine_dedup [[⟨"74", 90, none⟩]]).2
    (DetectedText.mk ("74") 90 zeroBBox DType.number) (by decide)

/-! ### Otsu: the bimodal synthetic histogram and the scan analysis -/

/-- The bimodal synthetic histogram of the claim: 50% of the mass at value 20
and 50% at value 220 (computed by the source's normalization from the
two-pixel sample `[20, 220]`). -/
def bimodalHist : ℕ → ℚ := normalizedHistogram [20, 220]

theorem bimodalHist_eq (i : ℕ) :
    bimodalHist i =
      (if i = 20 then (1 : ℚ)/2 else 0) + (if i = 220 then (1 : ℚ)/2 else 0) := by
  by_cases h20 : i = 20
  · subst h20; decide
  · by_cases h220 : i = 220
    · subst h220; decide
    · rw [if_neg h20, if_neg h220]
      rw [bimodalHist, normalizedHistogram]
      have hf : List.filter (fun p => decide (p = i)) [20, 220] = [] := by
        have d20 : (decide ((20 : ℕ) = i)) = false := by
          simp [decide_eq_false_iff_not]
          exact fun h => h20 h.symm
        have d220 : (decide ((220 : ℕ) = i)) = false := by
          simp [decide_eq_false_iff_not]
          exact fun h => h220 h.symm
        simp [List.filter, d20, d220]
      rw [hf]
      norm_num

theorem sum_map_add_distrib (l : List ℕ) (f g : ℕ → ℚ) :
    (l.map (fun i => f i + g i)).sum = (l.map f).sum + (l.map g).sum := by
  induction l with
  | nil => simp
  | cons x l ih => simp [ih]; ring

theorem sum_map_single (n b : ℕ) (hb : b < n) (g : ℕ → ℚ)
    (hg : ∀ i, i ≠ b → g i = 0) : ((List.range n).map g).sum = g b := by
  induction n with
  | zero => omega
  | succ n ih =>
    rw [List.range_succ, List.map_append, List.sum_append]
    by_cases hbn : b = n
    · subst hbn
      rw [show ((List.range b).map g).sum = 0 from List.sum_eq_zero ?_]
      · simp
      · intro x hx
        rcases List.mem_map.mp hx with ⟨i, hi, he⟩
        rw [← he]
        exact hg i (by rw [List.mem_range] at hi; omega)
    · rw [ih (by omega)]
      simp [hg n (fun h => hbn h.symm)]

theorem otsuW0_bimodal (t : ℕ) :
    otsuW0 bimodalHist t =
      (if 20 ≤ t then (1 : ℚ)/2 else 0) + (if 220 ≤ t then (1 : ℚ)/2 else 0) := by
  rw [otsuW0]
  have hfun : (fun i => if i ≤ t then bimodalHist i else 0) =
      (fun i => (if i ≤ t then (if i = 20 then (1 : ℚ)/2 else 0) else 0) +
                (if i ≤ t then (if i = 220 then (1 : ℚ)/2 else 0) else 0)) := by
    funext i
    by_cases h : i ≤ t
    · rw [if_pos h, if_pos h, if_pos h, bimodalHist_eq]
    · rw [if_neg h, if_neg h, if_neg h]; norm_num
  rw [hfun, sum_map_add_distrib]
  have hg20 : ∀ i, i ≠ 20 →
      (if i ≤ t then (if i = 20 then (1 : ℚ)/2 else 0) else 0) = 0 := by
    intro i hi
    by_cases h : i ≤ t
    · rw [if_pos h, if_neg hi]
    · rw [if_neg h]
  have hg220 : ∀ i, i ≠ 220 →
      (if i ≤ t then (if i = 220 then (1 : ℚ)/2 else 0) else 0) = 0 := by
    intro i hi
    by_cases h : i ≤ t
    · rw [if_pos h, if_neg hi]
    · rw [if_neg h]
  rw [sum_map_single 256 20 (by omega) _ hg20, sum_map_single 256 220 (by omega) _ hg220]
  simp

theorem otsuW1_bimodal (t : ℕ) :
    otsuW1 bimodalHist t =
      (if 20 ≤ t then 0 else (1 : ℚ)/2) + (if 220 ≤ t then 0 else (1 : ℚ)/2) := by
  rw [otsuW1]
  have hfun : (fun i => if i ≤ t then 0 else bimodalHist i) =
      (fun i => (if i ≤ t then 0 else (if i = 20 then (1 : ℚ)/2 else 0)) +
                (if i ≤ t then 0 else (if i = 220 then (1 : ℚ)/2 else 0))) := by
    funext i
    by_cases h : i ≤ t
    · rw [if_pos h, if_pos h, if_pos h]; norm_num
    · rw [if_neg h, if_neg h, if_neg h, bimodalHist_eq]
  rw [hfun, sum_map_add_distrib]
  have hg20 : ∀ i, i ≠ 20 →
      (if i ≤ t then 0 else (if i = 20 then (1 : ℚ)/2 else 0)) = 0 := by
    intro i hi
    by_cases h : i ≤ t
    · rw [if_pos h]
    · rw [if_neg h, if_neg hi]
  have hg220 : ∀ i, i ≠ 220 →
      (if i ≤ t then 0 else (if i = 220 then (1 : ℚ)/2 else 0)) = 0 := by
    intro i hi
    by_cases h : i ≤ t
    · rw [if_pos h]
    · rw [if_neg h, if_neg hi]
  rw [sum_map_single 256 20 (by omega) _ hg20, sum_map_single 256 220 (by omega) _ hg220]
  have h20le : ((20 : ℕ) ≤ t) ↔ (20 ≤ t) := Iff.rfl
  by_cases h1 : 20 ≤ t <;> by_cases h2 : 220 ≤ t <;>
    simp [h1, h2]

theorem otsuMean0_bimodal_mid (t : ℕ) (h20 : 20 ≤ t) (h220 : t < 220) :
    otsuMean0 bimodalHist t = 20 := by
  have hw0 : otsuW0 bimodalHist t = 1/2 := by
    rw [otsuW0_bimodal, if_pos h20, if_neg (by omega)]
    norm_num
  simp only [otsuMean0, hw0]
  have hfun : (fun i => if i ≤ t then (i : ℚ) * bimodalHist i / (1/2) else 0) =
      (fun i => (if i ≤ t then (if i = 20 then (20 : ℚ) else 0) else 0) +
                (if i ≤ t then (if i = 220 then (220 : ℚ) else 0) else 0)) := by
    funext i
    by_cases h : i ≤ t
    · rw [if_pos h, if_pos h, if_pos h, bimodalHist_eq]
      by_cases hi20 : i = 20
      · subst hi20
        rw [if_pos rfl, if_pos rfl, if_neg (by norm_num)]
        norm_num
      · by_cases hi220 : i = 220
        · subst hi220
          rw [if_neg (by norm_num), if_pos rfl, if_neg (by norm_num), if_pos rfl]
          norm_num
        · rw [if_neg hi20, if_neg hi220, if_neg hi20, if_neg hi220]
          norm_num
    · rw [if_neg h, if_neg h, if_neg h]; norm_num
  rw [hfun, sum_map_add_distrib]
  have hg20 : ∀ i, i ≠ 20 →
      (if i ≤ t then (if i = 20 then (20 : ℚ) else 0) else 0) = 0 := by
    intro i hi
    by_cases h : i ≤ t
    · rw [if_pos h, if_neg hi]
    · rw [if_neg h]
  have hg220 : ∀ i, i ≠ 220 →
      (if i ≤ t then (if i = 220 then (220 : ℚ) else 0) else 0) = 0 := by
    intro i hi
    by_cases h : i ≤ t
    · rw [if_pos h, if_neg hi]
    · rw [if_neg h]
  rw [sum_map_single 256 20 (by omega) _ hg20, sum_map_single 256 220 (by omega) _ hg220]
  rw [if_pos h20, if_pos rfl, if_neg (by omega)]
  norm_num

theorem otsuMean1_bimodal_mid (t : ℕ) (h20 : 20 ≤ t) (h220 : t < 220) :
    otsuMean1 bimodalHist t = 220 := by
  have hw1 : otsuW1 bimodalHist t = 1/2 := by
    rw [otsuW1_bimodal, if_pos h20, if_neg (by omega)]
    norm_num
  simp only [otsuMean1, hw1]
  have hfun : (fun i => if i ≤ t then 0 else (i : ℚ) * bimodalHist i / (1/2)) =
      (fun i => (if i ≤ t then 0 else (if i = 20 then (20 : ℚ) else 0)) +
                (if i ≤ t then 0 else (if i = 220 then (220 : ℚ) else 0))) := by
    funext i
    by_cases h : i ≤ t
    · rw [if_pos h, if_pos h, if_pos h]; norm_num
    · rw [if_neg h, if_neg h, if_neg h, bimodalHist_eq]
      by_cases hi20 : i = 20
      · subst hi20
        rw [if_pos rfl, if_pos rfl, if_neg (by norm_num)]
        norm_num
      · by_cases hi220 : i = 220
        · subst hi220
          rw [if_neg (by norm_num), if_pos rfl, if_neg (by norm_num), if_pos rfl]
          norm_num
        · rw [if_neg hi20, if_neg hi220, if_neg hi20, if_neg hi220]
          norm_num
  rw [hfun, sum_map_add_distrib]
  have hg20 : ∀ i, i ≠ 20 →
      (if i ≤ t then 0 else (if i = 20 then (20 : ℚ) else 0)) = 0 := by
    intro i hi
    by_cases h : i ≤ t
    · rw [if_pos h]
    · rw [if_neg h, if_neg hi]
  have hg220 : ∀ i, i ≠ 220 →
      (if i ≤ t then 0 else (if i = 220 then (220 : ℚ) else 0)) = 0 := by
    intro i hi
    by_cases h : i ≤ t
    · rw [if_pos h]
    · rw [if_neg h, if_neg hi]
  rw [sum_map_single 256 20 (by omega) _ hg20, sum_map_single 256 220 (by omega) _ hg220]
  rw [if_pos h20, if_neg (by omega), if_pos rfl]
  norm_num

theorem otsuVariance_bimodal_mid (t : ℕ) (h20 : 20 ≤ t) (h220 : t < 220) :
    otsuVariance bimodalHist t = 10000 := by
  rw [otsuVariance, otsuMean0_bimodal_mid t h20 h220, otsuMean1_bimodal_mid t h20 h220,
    otsuW0_bimodal, otsuW1_bimodal, if_pos h20, if_pos h20, if_neg (by omega),
    if_neg (by omega)]
  norm_num

theorem otsuW0_bimodal_low (t : ℕ) (h : t < 20) : otsuW0 bimodalHist t = 0 := by
  rw [otsuW0_bimodal, if_neg (by omega), if_neg (by omega)]
  norm_num

theorem otsuW1_bimodal_high (t : ℕ) (h : 220 ≤ t) : otsuW1 bimodalHist t = 0 := by
  rw [otsuW1_bimodal, if_pos (by omega), if_pos h]
  norm_num

theorem foldl_fixed {α β : Type} (f : β → α → β) :
    ∀ (l : List α) (acc : β), (∀ t ∈ l, f acc t = acc) → l.foldl f acc = acc := by
  intro l
  induction l with
  | nil => intro acc _; rfl
  | cons x l ih =>
    intro acc h
    rw [List.foldl_cons, h x (List.mem_cons_self x l)]
    exact ih acc (fun t ht => h t (List.mem_cons_of_mem x ht))

theorem otsuStep_fst_le (hist : ℕ → ℚ) (acc : ℚ × ℕ) (t : ℕ) :
    acc.1 ≤ (otsuStep hist acc t).1 := by
  rw [otsuStep]
  split
  · exact le_refl _
  · split
    · rename_i h
      exact le_of_lt h
    · exact le_refl _

theorem otsuFold_fst_mono (hist : ℕ → ℚ) :
    ∀ (l : List ℕ) (acc : ℚ × ℕ), acc.1 ≤ (l.foldl (otsuStep hist) acc).1 := by
  intro l
  induction l with
  | nil => intro acc; exact le_refl _
  | cons x l ih =>
    intro acc
    rw [List.foldl_cons]
    exact le_trans (otsuStep_fst_le hist acc x) (ih (otsuStep hist acc x))

theorem otsuFold_fst_ge_variance (hist : ℕ → ℚ) :
    ∀ (l : List ℕ) (acc : ℚ × ℕ), ∀ t ∈ l,
      ¬(otsuW0 hist t = 0 ∨ otsuW1 hist t = 0) →
      otsuVariance hist t ≤ (l.foldl (otsuStep hist) acc).1 := by
  intro l
  induction l with
  | nil => intro acc t ht; exact absurd ht (List.not_mem_nil t)
  | cons x l ih =>
    intro acc t ht hns
    rw [List.foldl_cons]
    rcases List.mem_cons.mp ht with rfl | ht'
    · refine le_trans ?_ (otsuFold_fst_mono hist l (otsuStep hist acc t))
      rw [otsuStep, if_neg hns]
      split
      · exact le_refl _
      · rename_i h
        exact le_of_not_lt h
    · exact ih (otsuStep hist acc x) t ht' hns

theorem otsuFold_achieves (hist : ℕ → ℚ) :
    ∀ (l : List ℕ) (acc : ℚ × ℕ),
      (acc = (0, 0) ∨
        (¬(otsuW0 hist acc.2 = 0 ∨ otsuW1 hist acc.2 = 0) ∧
          acc.1 = otsuVariance hist acc.2)) →
      (l.foldl (otsuStep hist) acc = (0, 0) ∨
        (¬(otsuW0 hist (l.foldl (otsuStep hist) acc).2 = 0 ∨
            otsuW1 hist (l.foldl (otsuStep hist) acc).2 = 0) ∧
          (l.foldl (otsuStep hist) acc).1 =
            otsuVariance hist (l.foldl (otsuStep hist) acc).2)) := by
  intro l
  induction l with
  | nil => intro acc h; exact h
  | cons x l ih =>
    intro acc h
    rw [List.foldl_cons]
    apply ih
    rw [otsuStep]
    split
    · exact h
    · rename_i hns
      split
      · exact Or.inr ⟨hns, rfl⟩
      · exact h

/-- The full scan on the bimodal histogram: candidate thresholds below 20 are
skipped (the low class is empty), `t = 20` is the first candidate with both
classes non-empty and installs the maximal variance 10000, every later
candidate up to 219 reproduces the same variance without strict improvement,
and candidates from 220 on are skipped (the high class is empty).  The scan
therefore returns `(10000, 20)`. -/
theorem otsuScan_bimodal : otsuScan bimodalHist = (10000, 20) := by
  rw [otsuScan, List.range_eq_range']
  have hsplit1 : List.range' 0 256 = List.range' 0 20 ++ List.range' 20 236 := by
    have := List.range'_append_1 0 20 236
    simpa using this.symm
  rw [hsplit1, List.foldl_append]
  have hlow : (List.range' 0 20).foldl (otsuStep bimodalHist) (0, 0) = (0, 0) := by
    apply foldl_fixed
    intro t ht
    rw [List.mem_range'] at ht
    obtain ⟨i, hi, rfl⟩ := ht
    rw [otsuStep, if_pos (Or.inl (otsuW0_bimodal_low _ (by omega)))]
  rw [hlow]
  have hsplit2 : List.range' 20 236 = 20 :: List.range' 21 235 := by
    have := List.range'_succ 20 235 1
    simpa using this
  rw [hsplit2, List.foldl_cons]
  have hstep20 : otsuStep bimodalHist (0, 0) 20 = (10000, 20) := by
    rw [otsuStep, if_neg ?_, otsuVariance_bimodal_mid 20 (le_refl 20) (by omega),
      if_pos (by norm_num)]
    intro h
    rcases h with h | h
    · rw [otsuW0_bimodal, if_pos (le_refl 20), if_neg (by omega)] at h
      norm_num at h
    · rw [otsuW1_bimodal, if_pos (le_refl 20), if_neg (by omega)] at h
      norm_num at h
  rw [hstep20]
  apply foldl_fixed
  intro t ht
  rw [List.mem_range'] at ht
  obtain ⟨i, hi, rfl⟩ := ht
  by_cases hhi : 220 ≤ 21 + 1 * i
  · rw [otsuStep, if_pos (Or.inr (otsuW1_bimodal_high _ hhi))]
  · have hv : otsuVariance bimodalHist (21 + 1 * i) = 10000 :=
      otsuVariance_bimodal_mid _ (by omega) (by omega)
    have hns : ¬(otsuW0 bimodalHist (21 + 1 * i) = 0 ∨
        otsuW1 bimodalHist (21 + 1 * i) = 0) := by
      intro h
      rcases h with h | h
      · rw [otsuW0_bimodal, if_pos (by omega), if_neg (by omega)] at h
        norm_num at h
      · rw [otsuW1_bimodal, if_pos (by omega), if_neg (by omega)] at h
        norm_num at h
    rw [otsuStep, if_neg hns, hv, if_neg (by norm_num)]

/-- C5. The claim: on the bimodal histogram (half the mass at 20, half at
220) the selected threshold lies strictly between the two modes.
Counterexample: the scan selects `t = 20` — the lower mode itself — because
the class split is `i ≤ t` versus `i > t` and the maximal variance is first
attained at `t = 20` (strict-improvement updates keep the first maximizer). -/
theorem C5_otsu_counterexample :
    ¬(20 < otsuThreshold bimodalHist ∧ otsuThreshold bimodalHist < 220) := by
  have h : otsuThreshold bimodalHist = 20 := by
    rw [otsuThreshold, otsuScan_bimodal]
  rw [h]
  intro hc
  exact absurd hc.1 (by omega)

/-- C5 (amended). The threshold-selection loop does maximize the between-class
variance `w0·w1·(mean0−mean1)²` over the candidates `t ∈ [0, 255]`, skipping
every `t` for which either class has zero weight: the final `maxVariance`
dominates the variance of every non-skipped candidate, and unless the scan
never updated (result `(0, 0)`), the returned threshold is a non-skipped
candidate attaining exactly `maxVariance`.  On the bimodal histogram with
half the mass at 20 and half at 220, however, the selected threshold is 20 —
the lower mode itself, at the boundary of the inter-mode range, not strictly
between the modes. -/
theorem C5_otsu_amended :
    (∀ (hist : ℕ → ℚ), ∀ t ∈ List.range 256,
        ¬(otsuW0 hist t = 0 ∨ otsuW1 hist t = 0) →
        otsuVariance hist t ≤ (otsuScan hist).1) ∧
    (∀ hist : ℕ → ℚ,
        otsuScan hist = (0, 0) ∨
          (¬(otsuW0 hist (otsuThreshold hist) = 0 ∨
              otsuW1 hist (otsuThreshold hist) = 0) ∧
            (otsuScan hist).1 = otsuVariance hist (otsuThreshold hist))) ∧
    otsuThreshold bimodalHist = 20 := by
  refine ⟨?_, ?_, ?_⟩
  · intro hist t ht hns
    rw [otsuScan]
    exact otsuFold_fst_ge_variance hist (List.range 256) (0, 0) t ht hns
  · intro hist
    have := otsuFold_achieves hist (List.range 256) (0, 0) (Or.inl rfl)
    rw [← otsuScan] at this
    exact this
  · rw [otsuThreshold, otsuScan_bimodal]

/-- C5 witness: the dominance part of the amended theorem applied at the
bimodal histogram and the concrete non-skipped candidate `t = 20`. -/
theorem C5_otsu_witness :
    ((20 ∈ List.range 256) ∧
      ¬(otsuW0 bimodalHist 20 = 0 ∨ otsuW1 bimodalHist 20 = 0)) ∧
    otsuVariance bimodalHist 20 ≤ (otsuScan bimodalHist).1 := by
  have hns : ¬(otsuW0 bimodalHist 20 = 0 ∨ otsuW1 bimodalHist 20 = 0) := by
    intro h
    rcases h with h | h
    · rw [otsuW0_bimodal, if_pos (le_refl 20), if_neg (by omega)] at h
      norm_num at h
    · rw [otsuW1_bimodal, if_pos (le_refl 20), if_neg (by omega)] at h
      norm_num at h
  exact ⟨⟨by decide, hns⟩, C5_otsu_amended.1 bimodalHist 20 (by decide) hns⟩

end MapScribe
